import Mathlib

/-!
Verification of the glyph-cache and compositor core of the `swash_demo`
repository, shallowly embedded in Lean.  Source files embedded here:
`src/comp/image_cache/glyph.rs` (sub-pixel quantization, variation-coordinate
keys, descender-region scan, glyph cache sessions, pruning) and
`src/comp/mod.rs` (`Compositor::draw_glyphs`, underline intercepts).
`f32` arithmetic is modelled exactly over `ℚ`; Rust machine integers are
modelled as `Nat`/`Int` with explicit wrapping where the source can wrap.
The `ImageCache` type lives in a source file that is not available
(`image_cache/cache.rs`); it is modelled from the spec where noted.
-/

namespace SwashDemo

/-- The four quantized sub-pixel phases of `SubpixelOffset` in
`image_cache/glyph.rs`. -/
inductive SubpixelOffset where
  | Zero
  | Quarter
  | Half
  | ThreeQuarters
deriving DecidableEq, Repr

/-- Embedding of `SubpixelOffset::quantize` from `image_cache/glyph.rs`:
`let apos = ((pos - pos.floor()) * 8.0) as i32` followed by the range match.
The argument `(pos - pos.floor()) * 8.0` lies in `[0, 8)`, where the Rust
`as i32` cast (truncation toward zero) agrees with the integer floor. -/
def SubpixelOffset.quantize (pos : ℚ) : SubpixelOffset :=
  let apos : ℤ := ⌊(pos - ⌊pos⌋) * 8⌋
  if 1 ≤ apos ∧ apos ≤ 2 then .Quarter
  else if 3 ≤ apos ∧ apos ≤ 4 then .Half
  else if 5 ≤ apos ∧ apos ≤ 6 then .ThreeQuarters
  else .Zero

/-- Embedding of `SubpixelOffset::to_f32`. -/
def SubpixelOffset.to_f32 : SubpixelOffset → ℚ
  | .Zero => 0
  | .Quarter => 1/4
  | .Half => 1/2
  | .ThreeQuarters => 3/4

/-- Embedding of the `Coords` enum of `image_cache/glyph.rs`: variation
coordinates stored as nothing, an inline length-8 buffer with an explicit
length, a heap vector, or a borrowed slice.  Rust `i16` elements are
modelled as `ℤ` (no arithmetic is performed on them, so no wrapping
arises). -/
inductive Coords where
  | none : Coords
  | inline : Nat → List ℤ → Coords
  | heap : List ℤ → Coords
  | ref : List ℤ → Coords
deriving DecidableEq, Repr

/-- Embedding of `Coords::new`: empty slices become `None`, slices of length
at most 8 are copied into a zero-initialised 8-element buffer
(`copy_from_slice` into `[0i16; 8]`), longer slices are copied to the heap. -/
def Coords.new (coords : List ℤ) : Coords :=
  let len := coords.length
  if len = 0 then .none
  else if len ≤ 8 then .inline len (coords ++ List.replicate (8 - len) 0)
  else .heap coords

/-- Embedding of `Coords::as_ref`: the logical coordinate sequence of any
variant (`&arr[..len]` for the inline variant). -/
def Coords.as_ref : Coords → List ℤ
  | .none => []
  | .inline len arr => arr.take len
  | .heap v => v
  | .ref s => s

/-- Embedding of `impl PartialEq for Coords`: equality compares the logical
sequences returned by `as_ref`, regardless of variant. -/
def Coords.beq (a b : Coords) : Bool :=
  a.as_ref == b.as_ref

/-- Embedding of `impl Hash for Coords`: the hash of a `Coords` value is the
hash of its `as_ref` sequence, for an arbitrary hasher `h`. -/
def Coords.hashWith {α : Type} (h : List ℤ → α) (c : Coords) : α :=
  h c.as_ref

/-- Discriminant of a `Coords` value (0 = None, 1 = Inline, 2 = Heap,
3 = Ref), used to state which variant `Coords::new` picks. -/
def Coords.tag : Coords → Nat
  | .none => 0
  | .inline _ _ => 1
  | .heap _ => 2
  | .ref _ => 3

/-- Content kind of a scaled glyph image (`swash::scale::image::Content`):
an 8-bit alpha mask, a subpixel mask, or a color bitmap. -/
inductive Content where
  | mask
  | subpixelMask
  | color
deriving DecidableEq, Repr

/-- Placement metadata of a scaled glyph image (`zeno::Placement`): left/top
offsets (`i32`) and pixel dimensions (`u32`). -/
structure Placement where
  left : ℤ
  top : ℤ
  width : Nat
  height : Nat
deriving DecidableEq, Repr

/-- A scaled glyph image (`swash::scale::image::Image`): placement, content
kind and the raw byte buffer (one byte per pixel for masks, four bytes per
pixel for color content). -/
structure GlyphImage where
  placement : Placement
  content : Content
  data : List Nat
deriving DecidableEq, Repr

/-- Embedding of the `DescenderRegion` struct: a `u16` start/end column pair.
Both fields stay below `u16::MAX = 65535` or equal it, exactly as in the
source (the scan only runs when `width < 65535`, so no cast truncates). -/
structure DescenderRegion where
  start : Nat
  endCol : Nat
deriving DecidableEq, Repr

/-- State of the per-row ink scan in `DescenderRegion::new`: the `has_ink`
and `in_ink` flags plus the accumulated `start`/`end` columns. -/
structure DescState where
  has_ink : Bool
  in_ink : Bool
  start : Nat
  endCol : Nat
deriving DecidableEq, Repr

/-- One iteration of the inner pixel loop of `DescenderRegion::new`: `i` is
the column index and `ink` tells whether the pixel at that column is
non-zero (non-zero alpha for masks, any non-zero channel for color). -/
def descStep (s : DescState) (i : Nat) (ink : Bool) : DescState :=
  if ink then
    { s with
      has_ink := true
      in_ink := true
      start := if s.has_ink then s.start else min s.start i }
  else if s.in_ink then
    { s with in_ink := false, endCol := max s.endCol i }
  else s

/-- The scan of one pixel row in `DescenderRegion::new`: fold the pixel loop
over the row with fresh `has_ink`/`in_ink` flags, then flush a trailing ink
run with `end = w`. -/
def descScanRow (w : Nat) (se : Nat × Nat) (pix : List Bool) : Nat × Nat :=
  let s := pix.enum.foldl (fun s p => descStep s p.1 p.2)
    ⟨false, false, se.1, se.2⟩
  if s.in_ink then (s.start, w) else (s.start, s.endCol)

/-- Collapse one RGBA chunk group like `chunks_exact(4)` in
`DescenderRegion::new`: each group of four bytes becomes one ink flag
(`rgba[0] != 0 || rgba[1] != 0 || rgba[2] != 0 || rgba[3] != 0`); a trailing
remainder of fewer than four bytes is dropped. -/
def chunk4Ink : List Nat → List Bool
  | a :: b :: c :: d :: rest =>
      (a != 0 || b != 0 || c != 0 || d != 0) :: chunk4Ink rest
  | _ => []

/-- Row extraction in `DescenderRegion::new`: `image.data.get(offset..offset
+ row_len)` yields the row's ink flags, or `none` when the slice is out of
bounds (the bounds-checked access that skips short rows). -/
def descRowInk (img : GlyphImage) (y : Nat) : Option (List Bool) :=
  let w := img.placement.width
  match img.content with
  | .mask =>
      let offset := y * w
      if offset + w ≤ img.data.length then
        some ((((img.data.drop offset).take w)).map (fun a => a != 0))
      else
        Option.none
  | _ =>
      let offset := y * w * 4
      if offset + w * 4 ≤ img.data.length then
        some (chunk4Ink ((img.data.drop offset).take (w * 4)))
      else
        Option.none

/-- Embedding of `DescenderRegion::new`: starting from `start = u16::MAX`
and `end = 0`, scan every row from `placement.top + 1` (inclusive) to the
image height (exclusive) when that range is non-empty and the width fits a
`u16`; rows whose slice is out of bounds are skipped. -/
def DescenderRegion.new (img : GlyphImage) : DescenderRegion :=
  let h : ℤ := img.placement.height
  let w := img.placement.width
  let y1 : ℤ := img.placement.top + 1
  if 0 ≤ y1 ∧ y1 < h ∧ w < 65535 then
    let rows := List.range' y1.toNat (img.placement.height - y1.toNat)
    let se := rows.foldl
      (fun se y =>
        match descRowInk img y with
        | some pix => descScanRow w se pix
        | Option.none => se)
      (65535, 0)
    ⟨se.1, se.2⟩
  else
    ⟨65535, 0⟩

/-- Embedding of `DescenderRegion::range`: `Some((start, end))` when
`start <= end`, else `None`.  The `f32` coordinates of the source are exact
images of the `u16` fields, kept here as naturals. -/
def DescenderRegion.range (d : DescenderRegion) : Option (Nat × Nat) :=
  if d.start ≤ d.endCol then some (d.start, d.endCol) else Option.none

/-- An image identifier handed out by the image cache (`ImageId`), modelled
as a bare natural number. -/
abbrev ImageId := Nat

/-- An atlas location returned by a successful image lookup
(`ImageLocation`), reduced to the backing identifier (the geometric payload
plays no role in the embedded claims). -/
structure ImageLocation where
  image : ImageId
deriving DecidableEq, Repr

/-- An allocation request (`AddImage`): pixel dimensions plus the alpha and
evictability flags (the pixel payload itself is consumed by the cache and
not needed afterwards). -/
structure AddImage where
  width : Nat
  height : Nat
  has_alpha : Bool
  evictable : Bool
deriving DecidableEq, Repr

/-- Modelled from the spec: the `ImageCache` of `image_cache/cache.rs` is
not part of the available sources, so its interface contract (spec sections
2, 3 and 4.1) is modelled as the set of currently valid image ids plus a
fresh-id counter and a maximum texture dimension.  `allocate` hands out a
fresh valid id when the request fits the maximum dimension, `deallocate`
invalidates an id, `is_valid` tests validity, and `get` returns a location
exactly for valid ids.  Atlas geometry and epoch-pressure eviction are not
modelled; the claims treated here quantify over arbitrary validity
states. -/
structure ImageCache where
  next_id : Nat
  live : List Nat
  max_dim : Nat
deriving DecidableEq, Repr

/-- Modelled from the spec: `ImageCache::is_valid`, a liveness check that
does not mutate the cache. -/
def ImageCache.is_valid (ic : ImageCache) (id : Nat) : Bool :=
  ic.live.contains id

/-- Modelled from the spec: `ImageCache::allocate` returns `None` exactly
when the request cannot fit the maximum texture dimension, and otherwise a
fresh identifier that is valid afterwards. -/
def ImageCache.allocate (ic : ImageCache) (req : AddImage) :
    Option Nat × ImageCache :=
  if req.width ≤ ic.max_dim ∧ req.height ≤ ic.max_dim then
    (some ic.next_id,
      { ic with next_id := ic.next_id + 1, live := ic.next_id :: ic.live })
  else
    (Option.none, ic)

/-- Modelled from the spec: `ImageCache::deallocate` releases an id early;
it returns `Some` data when the id was valid and leaves the id invalid. -/
def ImageCache.deallocate (ic : ImageCache) (id : Nat) :
    Option Unit × ImageCache :=
  (if ic.live.contains id then some () else Option.none,
    { ic with live := ic.live.filter (fun x => x ≠ id) })

/-- Modelled from the spec: `ImageCache::get` resolves a valid id to its
atlas location and misses on an invalid one. -/
def ImageCache.get (ic : ImageCache) (id : Nat) : Option ImageLocation :=
  if ic.live.contains id then some ⟨id⟩ else Option.none

/-- Embedding of `RasterizedGlyphKey`: glyph id, the two quantized sub-pixel
phases, and the quantized size. -/
structure RasterizedGlyphKey where
  id : Nat
  subpxX : SubpixelOffset
  subpxY : SubpixelOffset
  size : Nat
deriving DecidableEq, Repr

/-- Embedding of `RasterizedGlyph`: placement offsets, pixel dimensions
(`u16`, wrapped from the `u32` placement values exactly as the `as u16`
casts do), the backing image id, the bitmap flag and the descender
region. -/
structure RasterizedGlyph where
  left : ℤ
  top : ℤ
  width : Nat
  height : Nat
  image_id : Nat
  is_bitmap : Bool
  desc : DescenderRegion
deriving DecidableEq, Repr

/-- Embedding of `FontEntry`: the last-used epoch and the map from
rasterized-glyph keys to cached glyphs, modelled as an association list with
most-recent-insertion-first lookup (observationally the `HashMap`). -/
structure FontEntry where
  epoch : Nat
  rasterized_glyphs : List (RasterizedGlyphKey × RasterizedGlyph)
deriving DecidableEq, Repr

/-- Lookup in an association list, the embedding of `HashMap::get`. -/
def lookupAssoc (key : RasterizedGlyphKey)
    (m : List (RasterizedGlyphKey × RasterizedGlyph)) :
    Option RasterizedGlyph :=
  match m with
  | [] => Option.none
  | kv :: rest => if kv.1 = key then some kv.2 else lookupAssoc key rest

/-- Embedding of `GlyphCache`: the map from `(font key, coords)` to font
entries, as an association list. -/
structure GlyphCache where
  fonts : List ((Nat × Coords) × FontEntry)
deriving DecidableEq, Repr

/-- State borrowed by a `GlyphCacheSession`: the font entry's glyph map, the
image cache, and the quantized size computed by `GlyphCache::session`
(`(size * 32.) as u16`).  The scaler itself is abstracted by a rendering
function passed to `get`. -/
structure SessionState where
  glyphs : List (RasterizedGlyphKey × RasterizedGlyph)
  ic : ImageCache
  quant_size : Nat
deriving DecidableEq, Repr

/-- The external rasterizer (`Render::render_into` through the scaler): from
a glyph id and the quantized sub-pixel offsets baked into the render
request, optionally produce a scaled glyph image. -/
abbrev RenderFn := Nat → SubpixelOffset → SubpixelOffset → Option GlyphImage

/-- The miss path of `GlyphCacheSession::get`: render the glyph, register
the pixels with the image cache as an evictable RGBA image, compute the
descender region, cache the entry under `key` and return it; on render
failure return `None` without touching the maps, and on allocation failure
return `None` without caching.  The `as u16` casts of the placement
dimensions wrap modulo 2^16. -/
def rasterizeAndCache (render : RenderFn) (st : SessionState)
    (key : RasterizedGlyphKey) : Option RasterizedGlyph × SessionState :=
  match render key.id key.subpxX key.subpxY with
  | some img =>
      let p := img.placement
      let w := p.width % 65536
      let h := p.height % 65536
      let req : AddImage := ⟨w, h, true, true⟩
      match st.ic.allocate req with
      | (some imageId, ic') =>
          let entry : RasterizedGlyph :=
            ⟨p.left, p.top, w, h, imageId,
              img.content == Content.color, DescenderRegion.new img⟩
          (some entry,
            { st with glyphs := (key, entry) :: st.glyphs, ic := ic' })
      | (Option.none, ic') => (Option.none, { st with ic := ic' })
  | Option.none => (Option.none, st)

/-- Embedding of `GlyphCacheSession::get`: quantize both coordinates, build
the `RasterizedGlyphKey`, return the cached glyph when present with a still
valid backing image, and otherwise rasterize and cache. -/
def GlyphCacheSession.get (render : RenderFn) (st : SessionState) (id : Nat)
    (x y : ℚ) : Option RasterizedGlyph × SessionState :=
  let subpxX := SubpixelOffset.quantize x
  let subpxY := SubpixelOffset.quantize y
  let key : RasterizedGlyphKey := ⟨id, subpxX, subpxY, st.quant_size⟩
  match lookupAssoc key st.glyphs with
  | some glyph =>
      if st.ic.is_valid glyph.image_id then (some glyph, st)
      else rasterizeAndCache render st key
  | Option.none => rasterizeAndCache render st key

/-- Release the backing image of every cached glyph of one font entry, as
the inner loop of `GlyphCache::prune` does. -/
def deallocGlyphs (gs : List (RasterizedGlyphKey × RasterizedGlyph))
    (ic : ImageCache) : ImageCache :=
  gs.foldl (fun ic g => (ic.deallocate g.2.image_id).2) ic

/-- The `retain` sweep of `GlyphCache::prune`: walk the font entries in
order; an entry whose epoch is strictly below `time` has all its images
deallocated and is dropped, any other entry is kept unchanged. -/
def pruneFonts (time : Nat) :
    List ((Nat × Coords) × FontEntry) → ImageCache →
    List ((Nat × Coords) × FontEntry) × ImageCache
  | [], ic => ([], ic)
  | kv :: rest, ic =>
      if kv.2.epoch < time then
        pruneFonts time rest (deallocGlyphs kv.2.rasterized_glyphs ic)
      else
        let r := pruneFonts time rest ic
        (kv :: r.1, r.2)

/-- Rust's `u64::checked_sub`: `None` on underflow. -/
def checkedSub (a b : Nat) : Option Nat :=
  if a < b then Option.none else some (a - b)

/-- Embedding of `GlyphCache::prune`: when `epoch.0.checked_sub(8)` yields
`time`, retain only the font entries with `entry.epoch >= time`,
deallocating every dropped entry's images; when the subtraction underflows
do nothing. -/
def GlyphCache.prune (gc : GlyphCache) (epoch : Nat) (ic : ImageCache) :
    GlyphCache × ImageCache :=
  match checkedSub epoch 8 with
  | some time =>
      let r := pruneFonts time gc.fonts ic
      (⟨r.1⟩, r.2)
  | Option.none => (gc, ic)

/-- Embedding of `GlyphCache::clear_evicted`: drop every cached glyph whose
backing image is no longer valid, then drop every font entry whose glyph
map became empty. -/
def GlyphCache.clear_evicted (gc : GlyphCache) (ic : ImageCache) :
    GlyphCache :=
  ⟨(gc.fonts.map (fun kv =>
      (kv.1, { kv.2 with
        rasterized_glyphs :=
          kv.2.rasterized_glyphs.filter
            (fun g => ic.is_valid g.2.image_id) }))).filter
    (fun kv => !kv.2.rasterized_glyphs.isEmpty)⟩

/-- A rectangle (`batch::Rect`): origin plus extent, in exact
coordinates. -/
structure Rect where
  x : ℚ
  y : ℚ
  width : ℚ
  height : ℚ
deriving DecidableEq, Repr

/-- A color, abstracted to an opaque token (its channel structure plays no
role in the embedded claims). -/
abbrev Color := Nat

/-- The `color::WHITE` constant used for bitmap glyphs. -/
def whiteColor : Color := 1

/-- A positioned glyph of a shaped run (`text::Glyph`). -/
structure Glyph where
  id : Nat
  x : ℚ
  y : ℚ
deriving DecidableEq, Repr

/-- An underline style (`UnderlineStyle`): vertical offset from the
baseline, stroke size and color. -/
structure UnderlineStyle where
  offset : ℚ
  size : ℚ
  color : Color
deriving DecidableEq, Repr

/-- The parts of `TextRunStyle` that `draw_glyphs` consumes besides the font
parameters (which select the session state): run color, baseline and the
optional underline. -/
structure TextRunStyle where
  color : Color
  baseline : ℚ
  underline : Option UnderlineStyle
deriving DecidableEq, Repr

/-- The batch accumulator (`BatchManager`), reduced to the three primitive
streams `draw_glyphs` feeds: filled rectangles (`add_rect`), textured image
rectangles and alpha-mask rectangles, each in submission order. -/
structure Batch where
  rects : List (Rect × ℚ × Color)
  image_rects : List (Rect × ℚ × Color)
  mask_rects : List (Rect × ℚ × Color)
deriving DecidableEq, Repr

/-- Embedding of `BatchManager::add_rect`. -/
def Batch.add_rect (b : Batch) (r : Rect) (depth : ℚ) (color : Color) :
    Batch :=
  { b with rects := b.rects ++ [(r, depth, color)] }

/-- Embedding of `BatchManager::add_image_rect` (texture payload
omitted). -/
def Batch.add_image_rect (b : Batch) (r : Rect) (depth : ℚ) (color : Color) :
    Batch :=
  { b with image_rects := b.image_rects ++ [(r, depth, color)] }

/-- Embedding of `BatchManager::add_mask_rect` (texture payload
omitted). -/
def Batch.add_mask_rect (b : Batch) (r : Rect) (depth : ℚ) (color : Color) :
    Batch :=
  { b with mask_rects := b.mask_rects ++ [(r, depth, color)] }

/-- Rust's `f32::round`: round half away from zero. -/
def rustRound (q : ℚ) : ℤ :=
  if 0 ≤ q then ⌊q + 1/2⌋ else -⌊-q + 1/2⌋

/-- The per-glyph body of the `draw_glyphs` loop: resolve the glyph through
the session, look up its atlas location, emit the image or mask rectangle at
the biased, floored position, and record an underline intercept when the
underline stroke intersects the glyph's height range and the glyph has a
descender region. -/
def drawGlyphStep (render : RenderFn) (depth : ℚ) (runColor : Color)
    (underline : Bool) (uoffset : ℤ)
    (acc : Batch × SessionState × List (ℚ × ℚ)) (g : Glyph) :
    Batch × SessionState × List (ℚ × ℚ) :=
  let r := GlyphCacheSession.get render acc.2.1 g.id g.x g.y
  match r.1 with
  | some entry =>
      match r.2.ic.get entry.image_id with
      | some _ =>
          let gx : ℚ := ((⌊g.x + 1/8⌋ + entry.left : ℤ) : ℚ)
          let gy : ℚ := ((⌊g.y + 0⌋ : ℤ) : ℚ) - (entry.top : ℚ)
          let rect : Rect := ⟨gx, gy, (entry.width : ℚ), (entry.height : ℚ)⟩
          let b :=
            if entry.is_bitmap then
              acc.1.add_image_rect rect depth whiteColor
            else
              acc.1.add_mask_rect rect depth runColor
          let ints :=
            if underline ∧ entry.top - uoffset < (entry.height : ℤ) then
              match entry.desc.range with
              | some se =>
                  acc.2.2 ++ [((se.1 : ℚ) + gx, (se.2 : ℚ) + gx)]
              | Option.none => acc.2.2
            else acc.2.2
          (b, r.2, ints)
      | Option.none => (acc.1, r.2, acc.2.2)
  | Option.none => (acc.1, r.2, acc.2.2)

/-- The underline emission tail of `draw_glyphs`: expand every intercept by
one pixel on each side, then walk them left to right keeping the cursor
`ux`, emitting one filled rectangle per gap before an intercept and a final
rectangle from the cursor to the end of the run. -/
def emitUnderline (b : Batch) (ints : List (ℚ × ℚ)) (x endX uy usize : ℚ)
    (depth : ℚ) (ucolor : Color) : Batch :=
  let ints2 := ints.map (fun r => (r.1 - 1, r.2 + 1))
  let acc := ints2.foldl
    (fun (acc : ℚ × Batch) r =>
      (r.2,
        if acc.1 < r.1 then
          acc.2.add_rect ⟨acc.1, uy, r.1 - acc.1, usize⟩ depth ucolor
        else acc.2))
    (x, b)
  if acc.1 < endX then
    acc.2.add_rect ⟨acc.1, uy, endX - acc.1, usize⟩ depth ucolor
  else acc.2

/-- Embedding of `Compositor::draw_glyphs` from `comp/mod.rs`: decode the
underline parameters (`offset.round() as i32`, `size.round().max(1.)`),
iterate the glyphs through the cache session collecting batched rectangles
and underline intercepts, and finally emit the underline rectangles between
the expanded intercepts. -/
def drawGlyphs (render : RenderFn) (st : SessionState) (b : Batch)
    (rect : Rect) (depth : ℚ) (style : TextRunStyle) (glyphs : List Glyph) :
    Batch × SessionState :=
  let u := match style.underline with
    | some u => (true, rustRound u.offset, max ((rustRound u.size : ℤ) : ℚ) 1, u.color)
    | Option.none => (false, 0, 0, 0)
  let underline := u.1
  let uoffset := u.2.1
  let usize := u.2.2.1
  let ucolor := u.2.2.2
  let x := rect.x
  let res := glyphs.foldl
    (drawGlyphStep render depth style.color underline uoffset) (b, st, [])
  if underline then
    let uy := style.baseline - (uoffset : ℚ)
    (emitUnderline res.1 res.2.2 x (x + rect.width) uy usize depth ucolor,
      res.2.1)
  else
    (res.1, res.2.1)

/-! Theorems. -/

/-- C1: `SubpixelOffset::quantize` computes `a = floor((p - floor p) * 8)`
and returns `Quarter` when `a` is 1 or 2, `Half` when `a` is 3 or 4,
`ThreeQuarters` when `a` is 5 or 6, and `Zero` otherwise; in particular the
four boundary points `0.125, 0.375, 0.625, 0.875` map to `Quarter, Half,
ThreeQuarters, Zero` respectively. -/
theorem claim_C1_quantize_boundaries :
    (∀ p : ℚ,
      ((⌊(p - ⌊p⌋) * 8⌋ = 1 ∨ ⌊(p - ⌊p⌋) * 8⌋ = 2) →
        SubpixelOffset.quantize p = .Quarter) ∧
      ((⌊(p - ⌊p⌋) * 8⌋ = 3 ∨ ⌊(p - ⌊p⌋) * 8⌋ = 4) →
        SubpixelOffset.quantize p = .Half) ∧
      ((⌊(p - ⌊p⌋) * 8⌋ = 5 ∨ ⌊(p - ⌊p⌋) * 8⌋ = 6) →
        SubpixelOffset.quantize p = .ThreeQuarters) ∧
      ((⌊(p - ⌊p⌋) * 8⌋ < 1 ∨ 6 < ⌊(p - ⌊p⌋) * 8⌋) →
        SubpixelOffset.quantize p = .Zero)) ∧
    SubpixelOffset.quantize (1/8) = .Quarter ∧
    SubpixelOffset.quantize (3/8) = .Half ∧
    SubpixelOffset.quantize (5/8) = .ThreeQuarters ∧
    SubpixelOffset.quantize (7/8) = .Zero := by
  refine ⟨fun p => ⟨?_, ?_, ?_, ?_⟩,
    by norm_num [SubpixelOffset.quantize],
    by norm_num [SubpixelOffset.quantize],
    by norm_num [SubpixelOffset.quantize],
    by norm_num [SubpixelOffset.quantize]⟩ <;>
    · intro h
      simp only [SubpixelOffset.quantize]
      split
      case _ hc => first | rfl | omega
      all_goals
        split
        case _ hc => first | rfl | omega
        all_goals
          split
          case _ hc => first | rfl | omega
          all_goals first | rfl | omega

/-- Witness for C1 at a concrete input: `p = 17/8` has
`a = floor((17/8 - 2) * 8) = 1`, so `quantize` returns `Quarter`. -/
theorem claim_C1_quantize_boundaries_witness :
    SubpixelOffset.quantize (17/8) = .Quarter :=
  (claim_C1_quantize_boundaries.1 (17/8)).1 (Or.inl (by norm_num))

/-- C7: `SubpixelOffset::quantize` is a pure function of the fractional
position and is periodic with period 1: `quantize p = quantize (p + 1)` for
every position `p`. -/
theorem claim_C7_quantize_periodic (p : ℚ) :
    SubpixelOffset.quantize p = SubpixelOffset.quantize (p + 1) := by
  have h : (p + 1 : ℚ) - ⌊p + 1⌋ = p - ⌊p⌋ := by
    rw [Int.floor_add_one]
    push_cast
    ring
  simp only [SubpixelOffset.quantize, h]

/-- The logical sequence of a freshly constructed `Coords` value is the
input slice: `Coords::new(c).as_ref() == c`. -/
lemma Coords.as_ref_new (c : List ℤ) : (Coords.new c).as_ref = c := by
  by_cases h0 : c.length = 0
  · simp [Coords.new, h0, Coords.as_ref, List.length_eq_zero.mp h0]
  · by_cases h8 : c.length ≤ 8
    · simp [Coords.new, h0, h8, Coords.as_ref,
        List.take_left c (List.replicate (8 - c.length) 0)]
    · simp [Coords.new, h0, h8, Coords.as_ref]

/-- C8: `Coords::new` picks the `None` variant for an empty slice, the
`Inline` variant for 1 to 8 elements and the `Heap` variant otherwise;
equality of `Coords` values of any variants holds exactly when their
logical element sequences (`as_ref`) agree, equal values hash identically
under every hasher, and `Coords::new(c)` equals `Coords::Ref(c)` for every
slice `c`. -/
theorem claim_C8_coords_key :
    (∀ c : List ℤ, (Coords.new c).tag =
      if c.length = 0 then 0 else if c.length ≤ 8 then 1 else 2) ∧
    (∀ a b : Coords, a.beq b = true ↔ a.as_ref = b.as_ref) ∧
    (∀ (h : List ℤ → Nat) (a b : Coords),
      a.beq b = true → a.hashWith h = b.hashWith h) ∧
    (∀ c : List ℤ, (Coords.new c).beq (Coords.ref c) = true) := by
  have hbeq : ∀ a b : Coords, a.beq b = true ↔ a.as_ref = b.as_ref := by
    intro a b
    simp [Coords.beq]
  refine ⟨?_, hbeq, ?_, ?_⟩
  · intro c
    by_cases h0 : c.length = 0
    · simp [Coords.new, h0, Coords.tag]
    · by_cases h8 : c.length ≤ 8
      · simp [Coords.new, h0, h8, Coords.tag]
      · simp [Coords.new, h0, h8, Coords.tag]
  · intro h a b hab
    simp only [Coords.hashWith, (hbeq a b).mp hab]
  · intro c
    rw [hbeq]
    simpa [Coords.as_ref] using Coords.as_ref_new c

/-- Witness for C8 at concrete inputs: the inline value built from `[5, -3]`
compares equal to the borrowed view and hashes identically under the length
hasher. -/
theorem claim_C8_coords_key_witness :
    (Coords.new [5, -3]).hashWith List.length
      = (Coords.ref [5, -3]).hashWith List.length :=
  claim_C8_coords_key.2.2.1 List.length (Coords.new [5, -3])
    (Coords.ref [5, -3]) (claim_C8_coords_key.2.2.2 [5, -3])

/-- A synthetic 8x4 alpha-mask glyph image: `top = 0` so the descender scan
covers rows 1 to 3, and row 1 has ink exactly in columns 2 to 5, giving a
`DescenderRegion` of `[2, 6)`. -/
def descImg : GlyphImage :=
  ⟨⟨0, 0, 8, 4⟩, Content.mask,
    List.replicate 8 0 ++ [0, 0, 1, 1, 1, 1, 0, 0] ++ List.replicate 16 0⟩

/-- A rasterizer that produces `descImg` for glyph id 7 and fails for every
other id. -/
def renderDesc : RenderFn :=
  fun id _ _ => if id = 7 then some descImg else Option.none

/-- A fresh session state: empty glyph map, empty image cache with room for
4096-pixel textures, quantized size 512 (`16.0 * 32`). -/
def sessionState0 : SessionState := ⟨[], ⟨0, [], 4096⟩, 512⟩

/-- An empty batch accumulator. -/
def emptyBatch : Batch := ⟨[], [], []⟩

/-- A run style with color 5, baseline 50 and a full underline of offset 0,
size 1 and color 9. -/
def runStyle0 : TextRunStyle := ⟨5, 50, some ⟨0, 1, 9⟩⟩

/-- The batch produced by drawing the single glyph 7 at `x = 100` over the
run rectangle `[0, 200)` with `runStyle0`'s underline. -/
def underlineBatch : Batch :=
  (drawGlyphs renderDesc sessionState0 emptyBatch ⟨0, 0, 200, 20⟩ 3 runStyle0
    [⟨7, 100, 0⟩]).1

/-- The rasterized entry produced for glyph 7 of `renderDesc`: the 8x4 mask
at the origin with descender region `[2, 6)` backed by image 0. -/
def entry0 : RasterizedGlyph := ⟨0, 0, 8, 4, 0, false, ⟨2, 6⟩⟩

/-- The session state after the first lookup of glyph 7: `entry0` cached
under phase `(Zero, Zero)` and image 0 live. -/
def sessionState1 : SessionState :=
  ⟨[(⟨7, .Zero, .Zero, 512⟩, entry0)], ⟨1, [0], 4096⟩, 512⟩

/-- C3: with an underline, `draw_glyphs` records one intercept per drawn
glyph whose rasterized top minus the underline offset falls within the
glyph height, expands intercepts by one pixel per side and emits one filled
rectangle per gap; for a single glyph with `DescenderRegion` `[2, 6)` at
`gx = 100` under a full-run underline over `[0, 200)`, the emitted
rectangles cover exactly `[0, 101)` and `[107, 200)` and nothing in
`[101, 107)`. -/
theorem claim_C3_underline_intercepts :
    underlineBatch.rects
      = [(⟨0, 50, 101, 1⟩, 3, 9), (⟨107, 50, 93, 1⟩, 3, 9)] ∧
    ∀ t : ℚ,
      (∃ rc ∈ underlineBatch.rects,
        rc.1.x ≤ t ∧ t < rc.1.x + rc.1.width) ↔
      (0 ≤ t ∧ t < 101 ∨ 107 ≤ t ∧ t < 200) := by
  have hq100 : SubpixelOffset.quantize 100 = .Zero := by
    norm_num [SubpixelOffset.quantize]
  have hq0 : SubpixelOffset.quantize 0 = .Zero := by
    norm_num [SubpixelOffset.quantize]
  have hget : GlyphCacheSession.get renderDesc sessionState0 7 100 0
      = (some entry0, sessionState1) := by
    simp only [GlyphCacheSession.get, hq100, hq0]
    decide
  have h18 : (⌊(100 : ℚ) + 1/8⌋ : ℤ) = 100 := by norm_num
  have h0f : (⌊(0 : ℚ) + 0⌋ : ℤ) = 0 := by norm_num
  have hr0 : rustRound 0 = 0 := by norm_num [rustRound]
  have hr1 : rustRound 1 = 1 := by norm_num [rustRound]
  have hrects : underlineBatch.rects
      = [(⟨0, 50, 101, 1⟩, 3, 9), (⟨107, 50, 93, 1⟩, 3, 9)] := by
    simp only [underlineBatch, drawGlyphs, drawGlyphStep, runStyle0,
      List.foldl_cons, List.foldl_nil, hget, hr0, hr1, h18, h0f,
      emitUnderline, Batch.add_rect, Batch.add_mask_rect, emptyBatch,
      entry0, sessionState1, ImageCache.get, DescenderRegion.range,
      List.map_cons, List.map_nil]
    norm_num
  refine ⟨hrects, fun t => ?_⟩
  rw [hrects]
  constructor
  · rintro ⟨rc, hrc, h1, h2⟩
    simp only [List.mem_cons, List.not_mem_nil, or_false] at hrc
    rcases hrc with rfl | rfl
    · exact Or.inl ⟨by simpa using h1, by norm_num at h2 ⊢; linarith⟩
    · exact Or.inr ⟨by simpa using h1, by norm_num at h2 ⊢; linarith⟩
  · rintro (⟨h1, h2⟩ | ⟨h1, h2⟩)
    · exact ⟨(⟨0, 50, 101, 1⟩, 3, 9), by simp, by simpa using h1,
        by norm_num; linarith⟩
    · exact ⟨(⟨107, 50, 93, 1⟩, 3, 9), by simp, by simpa using h1,
        by norm_num; linarith⟩

/-- A successful miss path caches what it returns: after
`rasterizeAndCache` returns `Some e`, the key resolves to `e` in the glyph
map, `e`'s backing image is valid, and the quantized size is unchanged. -/
lemma rasterizeAndCache_success (render : RenderFn) (st : SessionState)
    (key : RasterizedGlyphKey) (e : RasterizedGlyph) (st1 : SessionState)
    (h : rasterizeAndCache render st key = (some e, st1)) :
    lookupAssoc key st1.glyphs = some e ∧
    st1.ic.is_valid e.image_id = true ∧
    st1.quant_size = st.quant_size := by
  simp only [rasterizeAndCache] at h
  cases hr : render key.id key.subpxX key.subpxY with
  | none => rw [hr] at h; simp at h
  | some img =>
    rw [hr] at h
    simp only [ImageCache.allocate] at h
    by_cases hfit :
        img.placement.width % 65536 ≤ st.ic.max_dim ∧
        img.placement.height % 65536 ≤ st.ic.max_dim
    · rw [if_pos hfit] at h
      simp only [Prod.mk.injEq, Option.some.injEq] at h
      obtain ⟨h1, h2⟩ := h
      subst h1
      subst h2
      refine ⟨by simp [lookupAssoc], ?_, rfl⟩
      simp [ImageCache.is_valid]
    · rw [if_neg hfit] at h
      simp at h

/-- C2: within one session, two `get` calls with the same glyph id at
positions whose sub-pixel phases quantize identically produce the same
`RasterizedGlyphKey`; after the first call misses, rasterizes and caches an
entry, the second call returns exactly that entry with the session state
unchanged, for every rasterizer — so the rasterizer is not invoked — as
long as the backing image is still valid. -/
theorem claim_C2_session_cache_hit (render : RenderFn) (st : SessionState)
    (id : Nat) (x1 y1 x2 y2 : ℚ)
    (hx : SubpixelOffset.quantize x1 = SubpixelOffset.quantize x2)
    (hy : SubpixelOffset.quantize y1 = SubpixelOffset.quantize y2)
    (hmiss : lookupAssoc
      ⟨id, SubpixelOffset.quantize x1, SubpixelOffset.quantize y1,
        st.quant_size⟩ st.glyphs = Option.none)
    (e : RasterizedGlyph) (st1 : SessionState)
    (h1 : GlyphCacheSession.get render st id x1 y1 = (some e, st1)) :
    (⟨id, SubpixelOffset.quantize x1, SubpixelOffset.quantize y1,
        st.quant_size⟩ : RasterizedGlyphKey)
      = ⟨id, SubpixelOffset.quantize x2, SubpixelOffset.quantize y2,
        st.quant_size⟩ ∧
    ∀ render2 : RenderFn,
      GlyphCacheSession.get render2 st1 id x2 y2 = (some e, st1) := by
  have hkey : (⟨id, SubpixelOffset.quantize x1, SubpixelOffset.quantize y1,
      st.quant_size⟩ : RasterizedGlyphKey)
      = ⟨id, SubpixelOffset.quantize x2, SubpixelOffset.quantize y2,
        st.quant_size⟩ := by rw [hx, hy]
  refine ⟨hkey, fun render2 => ?_⟩
  have h1' : rasterizeAndCache render st
      ⟨id, SubpixelOffset.quantize x1, SubpixelOffset.quantize y1,
        st.quant_size⟩ = (some e, st1) := by
    simpa only [GlyphCacheSession.get, hmiss] using h1
  obtain ⟨hlook, hvalid, hq⟩ :=
    rasterizeAndCache_success render st _ e st1 h1'
  have hkey2 : (⟨id, SubpixelOffset.quantize x2, SubpixelOffset.quantize y2,
      st1.quant_size⟩ : RasterizedGlyphKey)
      = ⟨id, SubpixelOffset.quantize x1, SubpixelOffset.quantize y1,
        st.quant_size⟩ := by rw [hq, ← hx, ← hy]
  simp only [GlyphCacheSession.get, hkey2, hlook, hvalid, if_true]

/-- Witness for C2 at concrete inputs: after glyph 7 is rasterized at
`x = 10.05` (phase Zero), the lookup at `x = 10.10` (same phase) hits the
cache for every rasterizer, in particular for one that always fails. -/
theorem claim_C2_session_cache_hit_witness :
    GlyphCacheSession.get (fun _ _ _ => Option.none) sessionState1 7
      (101/10) 0 = (some entry0, sessionState1) :=
  (claim_C2_session_cache_hit renderDesc sessionState0 7 (1005/100) 0
    (101/10) 0
    (by norm_num [SubpixelOffset.quantize])
    rfl
    (by simp [lookupAssoc, sessionState0])
    entry0 sessionState1
    (by
      have hq1 : SubpixelOffset.quantize (1005/100) = .Zero := by
        norm_num [SubpixelOffset.quantize]
      have hq0 : SubpixelOffset.quantize 0 = .Zero := by
        norm_num [SubpixelOffset.quantize]
      simp only [GlyphCacheSession.get, hq1, hq0]
      decide)).2 (fun _ _ _ => Option.none)

/-- C6: when the requested key is not usably cached (absent, or cached with
an invalidated backing image) and rasterization fails, `get` returns `None`
and leaves the session state — in particular the font entry's glyph map —
unchanged, caching no negative result. -/
theorem claim_C6_no_negative_caching (render : RenderFn) (st : SessionState)
    (id : Nat) (x y : ℚ)
    (hmiss : ∀ g, lookupAssoc
      ⟨id, SubpixelOffset.quantize x, SubpixelOffset.quantize y,
        st.quant_size⟩ st.glyphs = some g →
      st.ic.is_valid g.image_id = false)
    (hfail : render id (SubpixelOffset.quantize x)
      (SubpixelOffset.quantize y) = Option.none) :
    GlyphCacheSession.get render st id x y = (Option.none, st) := by
  have hrc : rasterizeAndCache render st
      ⟨id, SubpixelOffset.quantize x, SubpixelOffset.quantize y,
        st.quant_size⟩ = (Option.none, st) := by
    simp only [rasterizeAndCache, hfail]
  simp only [GlyphCacheSession.get]
  cases hl : lookupAssoc
      ⟨id, SubpixelOffset.quantize x, SubpixelOffset.quantize y,
        st.quant_size⟩ st.glyphs with
  | none => exact hrc
  | some g => simpa [hmiss g hl] using hrc

/-- Witness for C6 at concrete inputs: with an empty glyph map and a
rasterizer that fails on glyph 9, `get` returns `None` and the fresh
session state is returned untouched. -/
theorem claim_C6_no_negative_caching_witness :
    GlyphCacheSession.get renderDesc sessionState0 9 0 0
      = (Option.none, sessionState0) :=
  claim_C6_no_negative_caching renderDesc sessionState0 9 0 0
    (by simp [lookupAssoc, sessionState0])
    (by simp [renderDesc])

/-- The retain sweep keeps exactly the font entries whose epoch is not
below the threshold, in order and unchanged. -/
lemma pruneFonts_fst (time : Nat) (fonts : List ((Nat × Coords) × FontEntry))
    (ic : ImageCache) :
    (pruneFonts time fonts ic).1
      = fonts.filter (fun kv => !decide (kv.2.epoch < time)) := by
  induction fonts generalizing ic with
  | nil => simp [pruneFonts]
  | cons kv rest ih =>
    by_cases h : kv.2.epoch < time
    · simp [pruneFonts, h, ih]
    · simp [pruneFonts, h, ih]

/-- Deallocation never revives an image: an id invalid before
`deallocGlyphs` stays invalid. -/
lemma contains_false_iff (l : List Nat) (x : Nat) :
    l.contains x = false ↔ x ∉ l := by simp

lemma deallocGlyphs_preserves_invalid
    (gs : List (RasterizedGlyphKey × RasterizedGlyph)) (ic : ImageCache)
    (x : Nat) (h : ic.is_valid x = false) :
    (deallocGlyphs gs ic).is_valid x = false := by
  induction gs generalizing ic with
  | nil => exact h
  | cons g rest ih =>
    refine ih _ ?_
    simp only [ImageCache.deallocate, ImageCache.is_valid,
      contains_false_iff] at h ⊢
    intro hx
    exact h (List.mem_filter.mp hx).1

/-- Every image of the deallocated glyph list is invalid afterwards. -/
lemma deallocGlyphs_kills
    (gs : List (RasterizedGlyphKey × RasterizedGlyph)) (ic : ImageCache)
    (g : RasterizedGlyphKey × RasterizedGlyph) (hg : g ∈ gs) :
    (deallocGlyphs gs ic).is_valid g.2.image_id = false := by
  induction gs generalizing ic with
  | nil => cases hg
  | cons g0 rest ih =>
    rcases List.mem_cons.mp hg with rfl | hmem
    · by_cases hr : g.2.image_id ∈
        ((ic.deallocate g.2.image_id).2).live
      · exfalso
        simp [ImageCache.deallocate, List.mem_filter] at hr
      · exact deallocGlyphs_preserves_invalid rest _ _
          (by simpa [ImageCache.is_valid, contains_false_iff] using hr)
    · exact ih _ hmem

/-- The retain sweep never revives an image either. -/
lemma pruneFonts_preserves_invalid (time : Nat)
    (fonts : List ((Nat × Coords) × FontEntry)) (ic : ImageCache) (x : Nat)
    (h : ic.is_valid x = false) :
    ((pruneFonts time fonts ic).2).is_valid x = false := by
  induction fonts generalizing ic with
  | nil => exact h
  | cons kv rest ih =>
    by_cases hkv : kv.2.epoch < time
    · simp only [pruneFonts, hkv, if_pos]
      exact ih _ (deallocGlyphs_preserves_invalid _ _ _ h)
    · simp only [pruneFonts, hkv, if_neg, not_false_iff]
      exact ih _ h

/-- Every image of every pruned font entry is invalid after the sweep. -/
lemma pruneFonts_kills (time : Nat)
    (fonts : List ((Nat × Coords) × FontEntry)) (ic : ImageCache)
    (kv : (Nat × Coords) × FontEntry) (hkv : kv ∈ fonts)
    (hold : kv.2.epoch < time)
    (g : RasterizedGlyphKey × RasterizedGlyph)
    (hg : g ∈ kv.2.rasterized_glyphs) :
    ((pruneFonts time fonts ic).2).is_valid g.2.image_id = false := by
  induction fonts generalizing ic with
  | nil => cases hkv
  | cons kv0 rest ih =>
    rcases List.mem_cons.mp hkv with rfl | hmem
    · simp only [pruneFonts, hold, if_pos]
      exact pruneFonts_preserves_invalid time rest _ _
        (deallocGlyphs_kills _ _ _ hg)
    · by_cases hkv0 : kv0.2.epoch < time
      · simp only [pruneFonts, hkv0, if_pos]
        exact ih _ hmem
      · simp only [pruneFonts, hkv0, if_neg, not_false_iff]
        exact ih _ hmem

/-- C4: `GlyphCache::prune(e, image_cache)` drops exactly the font entries
whose last-used epoch is older than the 8-frame retention window relative
to `e` (entries used within the window are kept with their glyph maps
unchanged, in order), and every dropped entry has all of its cached glyphs'
backing images deallocated from the image cache. -/
theorem claim_C4_prune_window (gc : GlyphCache) (epoch : Nat)
    (ic : ImageCache) :
    (GlyphCache.prune gc epoch ic).1.fonts
      = gc.fonts.filter (fun kv => !decide (kv.2.epoch < epoch - 8)) ∧
    ∀ kv ∈ gc.fonts, kv.2.epoch < epoch - 8 →
      ∀ g ∈ kv.2.rasterized_glyphs,
        ((GlyphCache.prune gc epoch ic).2).is_valid g.2.image_id
          = false := by
  unfold GlyphCache.prune
  by_cases h8 : epoch < 8
  · have hnone : checkedSub epoch 8 = Option.none := by
      simp [checkedSub, h8]
    rw [hnone]
    constructor
    · have : ∀ kv : (Nat × Coords) × FontEntry,
        (!decide (kv.2.epoch < epoch - 8)) = true := by
        intro kv
        simp
        omega
      simp only [List.filter_eq_self.mpr (fun kv _ => this kv)]
    · intro kv _ hlt g _
      omega
  · have hsome : checkedSub epoch 8 = some (epoch - 8) := by
      simp [checkedSub, h8]
    rw [hsome]
    exact ⟨pruneFonts_fst _ _ _,
      fun kv hkv hlt g hg => pruneFonts_kills _ _ _ kv hkv hlt g hg⟩

/-- A two-entry glyph cache for the pruning witnesses: a stale font entry
(epoch 1) holding a glyph backed by image 3, and a fresh one (epoch 12)
holding a glyph backed by image 4. -/
def pruneCache : GlyphCache :=
  ⟨[((1, Coords.none), ⟨1, [(⟨1, .Zero, .Zero, 512⟩,
      ⟨0, 0, 1, 1, 3, false, ⟨65535, 0⟩⟩)]⟩),
    ((2, Coords.none), ⟨12, [(⟨2, .Zero, .Zero, 512⟩,
      ⟨0, 0, 1, 1, 4, false, ⟨65535, 0⟩⟩)]⟩)]⟩

/-- The image cache backing `pruneCache`: images 3 and 4 live. -/
def pruneIc : ImageCache := ⟨5, [3, 4], 4096⟩

/-- Witness for C4 at a concrete input: pruning `pruneCache` at epoch 12
keeps only the fresh entry and invalidates the stale entry's image 3. -/
theorem claim_C4_prune_window_witness :
    (GlyphCache.prune pruneCache 12 pruneIc).1.fonts
      = pruneCache.fonts.filter
        (fun kv => !decide (kv.2.epoch < 12 - 8)) ∧
    ((GlyphCache.prune pruneCache 12 pruneIc).2).is_valid 3 = false :=
  ⟨(claim_C4_prune_window pruneCache 12 pruneIc).1,
    (claim_C4_prune_window pruneCache 12 pruneIc).2
      ((1, Coords.none), ⟨1, [(⟨1, .Zero, .Zero, 512⟩,
        ⟨0, 0, 1, 1, 3, false, ⟨65535, 0⟩⟩)]⟩)
      (by decide) (by decide)
      (⟨1, .Zero, .Zero, 512⟩, ⟨0, 0, 1, 1, 3, false, ⟨65535, 0⟩⟩)
      (by decide)⟩

/-- C10: `GlyphCache::prune` removes a font entry exactly when `8 <= e` and
the entry's epoch is strictly below `e - 8`; an entry last used exactly 8
frames before `e` is kept, and when `e < 8` the call returns both caches
completely unchanged. -/
theorem claim_C10_prune_boundary (gc : GlyphCache) (epoch : Nat)
    (ic : ImageCache) :
    (∀ kv, kv ∈ (GlyphCache.prune gc epoch ic).1.fonts ↔
      kv ∈ gc.fonts ∧ ¬(8 ≤ epoch ∧ kv.2.epoch < epoch - 8)) ∧
    (∀ kv ∈ gc.fonts, kv.2.epoch + 8 = epoch →
      kv ∈ (GlyphCache.prune gc epoch ic).1.fonts) ∧
    (epoch < 8 → GlyphCache.prune gc epoch ic = (gc, ic)) := by
  have hmem : ∀ kv, kv ∈ (GlyphCache.prune gc epoch ic).1.fonts ↔
      kv ∈ gc.fonts ∧ ¬(8 ≤ epoch ∧ kv.2.epoch < epoch - 8) := by
    intro kv
    unfold GlyphCache.prune
    by_cases h8 : epoch < 8
    · have hnone : checkedSub epoch 8 = Option.none := by
        simp [checkedSub, h8]
      rw [hnone]
      simp only
      constructor
      · intro h
        exact ⟨h, by omega⟩
      · intro h
        exact h.1
    · have hsome : checkedSub epoch 8 = some (epoch - 8) := by
        simp [checkedSub, h8]
      rw [hsome]
      simp only [pruneFonts_fst, List.mem_filter, Bool.not_eq_eq_eq_not,
        Bool.not_true, decide_eq_false_iff_not]
      constructor
      · intro h
        exact ⟨h.1, by simpa using fun _ => h.2⟩
      · intro h
        exact ⟨h.1, fun hlt => (h.2 ⟨by omega, hlt⟩).elim⟩
  refine ⟨hmem, fun kv hkv hexact => ?_, fun h8 => ?_⟩
  · exact (hmem kv).mpr ⟨hkv, by omega⟩
  · have hnone : checkedSub epoch 8 = Option.none := by
      simp [checkedSub, h8]
    unfold GlyphCache.prune
    rw [hnone]

/-- Witness for C10 at a concrete input: at epoch 9, the entry of
`pruneCache` last used at epoch 1 (which is exactly `9 - 8`) is retained,
and at epoch 7 the call is a no-op. -/
theorem claim_C10_prune_boundary_witness :
    ((1, Coords.none), (⟨1, [(⟨1, .Zero, .Zero, 512⟩,
        ⟨0, 0, 1, 1, 3, false, ⟨65535, 0⟩⟩)]⟩ : FontEntry))
      ∈ (GlyphCache.prune pruneCache 9 pruneIc).1.fonts ∧
    GlyphCache.prune pruneCache 7 pruneIc = (pruneCache, pruneIc) :=
  ⟨(claim_C10_prune_boundary pruneCache 9 pruneIc).2.1
      ((1, Coords.none), ⟨1, [(⟨1, .Zero, .Zero, 512⟩,
        ⟨0, 0, 1, 1, 3, false, ⟨65535, 0⟩⟩)]⟩)
      (by decide) (by decide),
    (claim_C10_prune_boundary pruneCache 7 pruneIc).2.2 (by decide)⟩

/-- C5: after `GlyphCache::clear_evicted`, every remaining cached glyph's
backing image is valid in the image cache and no font entry with an empty
glyph map remains — the two caches agree about validity. -/
theorem claim_C5_clear_evicted_valid (gc : GlyphCache) (ic : ImageCache) :
    ∀ kv ∈ (GlyphCache.clear_evicted gc ic).fonts,
      kv.2.rasterized_glyphs ≠ [] ∧
      ∀ g ∈ kv.2.rasterized_glyphs, ic.is_valid g.2.image_id = true := by
  intro kv hkv
  unfold GlyphCache.clear_evicted at hkv
  simp only [List.mem_filter, List.mem_map, Bool.not_eq_eq_eq_not,
    Bool.not_false] at hkv
  obtain ⟨⟨kv0, _, rfl⟩, hne⟩ := hkv
  refine ⟨by simpa [List.isEmpty_iff] using hne, fun g hg => ?_⟩
  simp only [List.mem_filter] at hg
  exact hg.2

/-- Witness for C5 at a concrete input: clearing `pruneCache` against an
image cache in which only image 4 is valid leaves a single entry whose only
glyph is backed by the valid image 4. -/
theorem claim_C5_clear_evicted_valid_witness :
    ((2, Coords.none), (⟨12, [(⟨2, .Zero, .Zero, 512⟩,
        ⟨0, 0, 1, 1, 4, false, ⟨65535, 0⟩⟩)]⟩ : FontEntry)).2.rasterized_glyphs
      ≠ [] ∧
    ∀ g ∈ ((2, Coords.none), (⟨12, [(⟨2, .Zero, .Zero, 512⟩,
        ⟨0, 0, 1, 1, 4, false, ⟨65535, 0⟩⟩)]⟩ : FontEntry)).2.rasterized_glyphs,
      (ImageCache.is_valid ⟨5, [4], 4096⟩ g.2.image_id) = true :=
  claim_C5_clear_evicted_valid pruneCache ⟨5, [4], 4096⟩
    ((2, Coords.none), ⟨12, [(⟨2, .Zero, .Zero, 512⟩,
      ⟨0, 0, 1, 1, 4, false, ⟨65535, 0⟩⟩)]⟩)
    (by decide)

/-- Invariant of the accumulated `(start, end)` pair between rows of the
descender scan: `end` never exceeds the width, and either the pair is still
the initial `(u16::MAX, 0)` or it is a genuine non-empty range. -/
def DescInv (w : Nat) (se : Nat × Nat) : Prop :=
  se.2 ≤ w ∧ (se.1 = 65535 ∧ se.2 = 0 ∨ se.1 < se.2)

/-- Invariant of the inner pixel loop before processing column `i`. -/
def StepInv (w i : Nat) (s : DescState) : Prop :=
  s.endCol ≤ w ∧
  (s.has_ink = true → s.start < i ∧ s.start < w) ∧
  (s.in_ink = true → s.has_ink = true) ∧
  (s.in_ink = false → s.start = 65535 ∧ s.endCol = 0 ∨ s.start < s.endCol)

/-- One pixel step preserves the loop invariant. -/
lemma descStep_inv {w i : Nat} {s : DescState} (ink : Bool)
    (h : StepInv w i s) (hi : i < w) :
    StepInv w (i + 1) (descStep s i ink) := by
  obtain ⟨h1, h2, h3, h4⟩ := h
  cases ink with
  | true =>
    simp only [descStep, if_pos]
    refine ⟨h1, fun _ => ?_, fun _ => rfl, by simp⟩
    by_cases hh : s.has_ink = true
    · simp only [hh, if_pos]
      exact ⟨Nat.lt_succ_of_lt (h2 hh).1, (h2 hh).2⟩
    · simp only [Bool.not_eq_true] at hh
      simp only [hh, Bool.false_eq_true, if_neg, not_false_iff]
      exact ⟨Nat.lt_succ_of_le (Nat.min_le_right _ _),
        Nat.lt_of_le_of_lt (Nat.min_le_right _ _) hi⟩
  | false =>
    by_cases hin : s.in_ink = true
    · have hhi := h3 hin
      have hs := h2 hhi
      simp only [descStep, Bool.false_eq_true, if_neg, not_false_iff, hin,
        if_pos]
      exact ⟨max_le h1 (Nat.le_of_lt hi),
        fun _ => ⟨Nat.lt_succ_of_lt hs.1, hs.2⟩,
        by simp,
        fun _ => Or.inr (Nat.lt_of_lt_of_le hs.1 (Nat.le_max_right _ _))⟩
    · simp only [Bool.not_eq_true] at hin
      simp only [descStep, Bool.false_eq_true, if_neg, not_false_iff, hin]
      exact ⟨h1, fun hh => ⟨Nat.lt_succ_of_lt (h2 hh).1, (h2 hh).2⟩, h3,
        fun _ => h4 hin⟩

/-- The enumerated pixel fold preserves the loop invariant. -/
lemma descFold_inv (w : Nat) (pix : List Bool) :
    ∀ (n : Nat) (s : DescState), n + pix.length ≤ w → StepInv w n s →
    StepInv w (n + pix.length)
      ((pix.enumFrom n).foldl (fun s p => descStep s p.1 p.2) s) := by
  induction pix with
  | nil => intro n s _ h; simpa using h
  | cons p rest ih =>
    intro n s hlen h
    have hi : n < w := by simp at hlen; omega
    have h1 := descStep_inv p h hi
    have h2 := ih (n + 1) (descStep s n p) (by simp at hlen ⊢; omega) h1
    have harith : n + (p :: rest).length = (n + 1) + rest.length := by
      simp [List.length_cons]
      omega
    rw [harith]
    exact h2

/-- One row scan preserves the between-rows invariant. -/
lemma descScanRow_inv (w : Nat) (se : Nat × Nat) (pix : List Bool)
    (hlen : pix.length ≤ w) (h : DescInv w se) :
    DescInv w (descScanRow w se pix) := by
  have h0 : StepInv w 0 ⟨false, false, se.1, se.2⟩ := by
    refine ⟨h.1, by simp, by simp, fun _ => h.2⟩
  have hfin := descFold_inv w pix 0 ⟨false, false, se.1, se.2⟩
    (by omega) h0
  obtain ⟨f1, f2, f3, f4⟩ := hfin
  have hgoal : descScanRow w se pix =
      (if ((pix.enumFrom 0).foldl (fun s p => descStep s p.1 p.2)
          ⟨false, false, se.1, se.2⟩).in_ink = true
       then (((pix.enumFrom 0).foldl (fun s p => descStep s p.1 p.2)
          ⟨false, false, se.1, se.2⟩).start, w)
       else (((pix.enumFrom 0).foldl (fun s p => descStep s p.1 p.2)
          ⟨false, false, se.1, se.2⟩).start,
        ((pix.enumFrom 0).foldl (fun s p => descStep s p.1 p.2)
          ⟨false, false, se.1, se.2⟩).endCol)) := rfl
  rw [hgoal]
  by_cases hin :
      ((pix.enumFrom 0).foldl (fun s p => descStep s p.1 p.2)
        ⟨false, false, se.1, se.2⟩).in_ink = true
  · rw [if_pos hin]
    exact ⟨Nat.le_refl w, Or.inr (f2 (f3 hin)).2⟩
  · rw [if_neg hin]
    exact ⟨f1, f4 (by simpa using hin)⟩

/-- `chunks_exact(4)` produces one flag per four bytes. -/
lemma chunk4Ink_length : ∀ l : List Nat,
    (chunk4Ink l).length = l.length / 4
  | [] => by simp [chunk4Ink]
  | [_] => by simp [chunk4Ink]
  | [_, _] => by simp [chunk4Ink]
  | [_, _, _] => by simp [chunk4Ink]
  | _ :: _ :: _ :: _ :: rest => by
      have ih := chunk4Ink_length rest
      simp only [chunk4Ink, List.length_cons, ih]
      omega

/-- A row produced by the bounds-checked slice has exactly `width` ink
flags. -/
lemma descRowInk_length (img : GlyphImage) (y : Nat) (pix : List Bool)
    (h : descRowInk img y = some pix) :
    pix.length = img.placement.width := by
  unfold descRowInk at h
  cases hc : img.content <;> rw [hc] at h <;> dsimp only at h <;>
    split at h <;> cases h
  all_goals
    simp only [List.length_map, List.length_take, List.length_drop,
      chunk4Ink_length]
  all_goals omega

/-- The row fold preserves the between-rows invariant. -/
lemma descRows_inv (img : GlyphImage) (rows : List Nat) (se : Nat × Nat)
    (h : DescInv img.placement.width se) :
    DescInv img.placement.width
      (rows.foldl
        (fun se y =>
          match descRowInk img y with
          | some pix => descScanRow img.placement.width se pix
          | Option.none => se) se) := by
  induction rows generalizing se with
  | nil => exact h
  | cons y rest ih =>
    refine ih _ ?_
    cases hrow : descRowInk img y with
    | none => simpa [hrow] using h
    | some pix =>
      simp only [hrow]
      exact descScanRow_inv _ _ _
        (Nat.le_of_eq (descRowInk_length img y pix hrow)) h

/-- A pixel step on blank input leaves a not-in-ink state unchanged. -/
lemma descStep_noink {s : DescState} (i : Nat) (h : s.in_ink = false) :
    descStep s i false = s := by
  simp [descStep, h]

/-- Folding a fully blank row leaves the carried columns unchanged. -/
lemma descFold_noink (pix : List Bool) :
    ∀ (n a b : Nat), (∀ x ∈ pix, x = false) →
    (pix.enumFrom n).foldl (fun s p => descStep s p.1 p.2)
      ⟨false, false, a, b⟩ = ⟨false, false, a, b⟩ := by
  induction pix with
  | nil => intro n a b _; rfl
  | cons p rest ih =>
    intro n a b hall
    have hp : p = false := hall p (List.mem_cons_self p rest)
    subst hp
    have hstep : descStep ⟨false, false, a, b⟩ n false
        = ⟨false, false, a, b⟩ := descStep_noink n rfl
    calc ((false :: rest).enumFrom n).foldl
          (fun s p => descStep s p.1 p.2) ⟨false, false, a, b⟩
        = (rest.enumFrom (n + 1)).foldl (fun s p => descStep s p.1 p.2)
            (descStep ⟨false, false, a, b⟩ n false) := rfl
      _ = ⟨false, false, a, b⟩ := by
          rw [hstep]
          exact ih (n + 1) a b (fun x hx => hall x (List.mem_cons_of_mem _ hx))

/-- Scanning a fully blank row is the identity on the carried columns. -/
lemma descScanRow_noink (w : Nat) (se : Nat × Nat) (pix : List Bool)
    (hall : ∀ x ∈ pix, x = false) : descScanRow w se pix = se := by
  unfold descScanRow
  rw [show pix.enum = pix.enumFrom 0 from rfl, descFold_noink pix 0 _ _ hall]
  simp

/-- The row fold over rows without ink is the identity. -/
lemma descRows_noink (img : GlyphImage) (rows : List Nat) (se : Nat × Nat)
    (h : ∀ y ∈ rows, ∀ pix, descRowInk img y = some pix →
      ∀ x ∈ pix, x = false) :
    rows.foldl
      (fun se y =>
        match descRowInk img y with
        | some pix => descScanRow img.placement.width se pix
        | Option.none => se) se = se := by
  induction rows generalizing se with
  | nil => rfl
  | cons y rest ih =>
    have hy : ∀ pix, descRowInk img y = some pix → ∀ x ∈ pix, x = false :=
      h y (List.mem_cons_self y rest)
    have hrest := fun y hy => h y (List.mem_cons_of_mem _ hy)
    cases hrow : descRowInk img y with
    | none => simp only [List.foldl_cons, hrow]; exact ih _ hrest
    | some pix =>
      simp only [List.foldl_cons, hrow,
        descScanRow_noink _ _ _ (hy pix hrow)]
      exact ih _ hrest

/-- C9: `DescenderRegion::new` yields a `range()` that is either `None` or
`Some((s, e))` with `0 <= s < e <= width`; the range is `None` whenever the
scan region is empty (`placement.top + 1` negative or not below the height,
or width at least 65535) or no non-zero pixel exists in the bounds-checked
rows below the top edge (out-of-range rows are skipped, never faulted
on). -/
theorem claim_C9_descender_region (img : GlyphImage) :
    (∀ s e, (DescenderRegion.new img).range = some (s, e) →
      s < e ∧ e ≤ img.placement.width) ∧
    ((img.placement.top + 1 < 0 ∨
        (img.placement.height : ℤ) ≤ img.placement.top + 1 ∨
        65535 ≤ img.placement.width) →
      (DescenderRegion.new img).range = Option.none) ∧
    ((∀ y : Nat, img.placement.top + 1 ≤ (y : ℤ) →
        ∀ pix, descRowInk img y = some pix → ∀ x ∈ pix, x = false) →
      (DescenderRegion.new img).range = Option.none) := by
  have hrangebad : (DescenderRegion.range ⟨65535, 0⟩) = Option.none := by
    simp [DescenderRegion.range]
  refine ⟨?_, ?_, ?_⟩
  · intro s e h
    simp only [DescenderRegion.new] at h
    by_cases hg : 0 ≤ img.placement.top + 1 ∧
        img.placement.top + 1 < (img.placement.height : ℤ) ∧
        img.placement.width < 65535
    · rw [if_pos hg] at h
      have hinv := descRows_inv img
        (List.range' (img.placement.top + 1).toNat
          (img.placement.height - (img.placement.top + 1).toNat))
        (65535, 0) ⟨Nat.zero_le _, Or.inl ⟨rfl, rfl⟩⟩
      set se := (List.range' (img.placement.top + 1).toNat
          (img.placement.height - (img.placement.top + 1).toNat)).foldl
        (fun se y =>
          match descRowInk img y with
          | some pix => descScanRow img.placement.width se pix
          | Option.none => se) (65535, 0) with hse
      simp only [DescenderRegion.range] at h
      by_cases hle : se.1 ≤ se.2
      · rw [if_pos hle] at h
        obtain ⟨rfl, rfl⟩ := Prod.mk.injEq .. ▸ Option.some.inj h
        rcases hinv.2 with ⟨h1, h2⟩ | hlt
        · omega
        · exact ⟨hlt, hinv.1⟩
      · rw [if_neg hle] at h
        cases h
    · rw [if_neg hg] at h
      rw [hrangebad] at h
      cases h
  · intro hcond
    simp only [DescenderRegion.new]
    rw [if_neg (by omega)]
    exact hrangebad
  · intro hall
    simp only [DescenderRegion.new]
    by_cases hg : 0 ≤ img.placement.top + 1 ∧
        img.placement.top + 1 < (img.placement.height : ℤ) ∧
        img.placement.width < 65535
    · rw [if_pos hg]
      rw [descRows_noink img _ _ ?_]
      · exact hrangebad
      · intro y hy pix hpix
        refine hall y ?_ pix hpix
        have := (List.mem_range'_1.mp hy).1
        omega
    · rw [if_neg hg]
      exact hrangebad

/-- Witness for C9 at a concrete input: the synthetic mask `descImg` has
range `[2, 6)` with `2 < 6` and `6 <= 8`. -/
theorem claim_C9_descender_region_witness :
    2 < 6 ∧ 6 ≤ descImg.placement.width :=
  (claim_C9_descender_region descImg).1 2 6 (by decide)

end SwashDemo
